import Mathlib

/-!
Verification of the EventChains build system (C sources) against its
natural-language specification.  The C code is shallowly embedded: the
filesystem is a map from paths to optional byte lists, the persistent
cache is a list of entries together with counters, and the dependency
resolver's two-pass DFS topological sort is modelled with explicit fuel.
-/

namespace EventChains

/-! ## Configuration constants (dependency_resolver.h, cache_metadata.h) -/

def MAX_CACHE_ENTRIES : Nat := 2048
def MAX_DEPENDENCIES_PER_FILE : Nat := 128
def CACHE_VERSION : Nat := 1
def FNV_OFFSET_BASIS : Nat := 0xcbf29ce484222325
def FNV_PRIME : Nat := 0x100000001b3

/-! ## Filesystem model

`contents p = some bytes` means `fopen(p, "rb")` succeeds and streaming
reads yield `bytes`; `none` means the file cannot be opened for reading.
`extant p` models the separate `access(p, F_OK)` existence check used by
`file_exists_cache`. -/

structure FS where
  contents : String → Option (List Nat)
  extant : String → Bool
  mtime : String → Nat

/-- FNV-1a step loop of `hash_file_content` (cache_metadata.c:48-53):
`hash = (hash XOR byte) * FNV_PRIME`, on 64-bit `uint64_t`. -/
def fnv1a : List Nat → Nat → Nat
  | [], h => h
  | b :: rest, h => fnv1a rest (((h ^^^ b) * FNV_PRIME) % 2 ^ 64)

/-- `hash_file_content` (cache_metadata.c:38-57): 0 when the file cannot
be read, otherwise FNV-1a of the full byte stream from the offset basis. -/
def hash_file_content (fs : FS) (path : String) : Nat :=
  match fs.contents path with
  | none => 0
  | some bytes => fnv1a bytes FNV_OFFSET_BASIS

/-- `file_exists_cache` (cache_metadata.c:70-73). -/
def file_exists_cache (fs : FS) (path : String) : Bool :=
  fs.extant path

/-! ## Persistent cache model (cache_metadata.h / cache_metadata.c)

A `CacheEntry` keeps the recorded dependency paths and hashes as one
list of pairs; in C they are two parallel arrays indexed by
`dependency_count`. -/

structure CacheEntry where
  source_path : String
  object_path : String
  source_hash : Nat
  source_mtime : Nat
  last_compiled : Nat
  deps : List (String × Nat)
  valid : Bool
deriving DecidableEq

structure BuildCache where
  entries : List CacheEntry
  hits : Nat
  misses : Nat
  invalidations : Nat
deriving DecidableEq

/-- `build_cache_find` (cache_metadata.c:230-240): linear scan for the
first entry whose `source_path` matches. -/
def build_cache_find (cache : BuildCache) (source_path : String) : Option CacheEntry :=
  cache.entries.find? (fun e => e.source_path = source_path)

/-- Dependency loop of `build_cache_needs_recompilation`
(cache_metadata.c:271-282): a recorded dependency forces recompilation
when its current hash is nonzero and differs from the recorded hash;
a current hash of 0 (file missing) is skipped. -/
def depChanged (fs : FS) : List (String × Nat) → Bool
  | [] => false
  | (dp, dh) :: rest =>
    let dep_hash := hash_file_content fs dp
    if dep_hash = 0 then depChanged fs rest
    else if dep_hash ≠ dh then true
    else depChanged fs rest

/-- `build_cache_needs_recompilation` (cache_metadata.c:242-291) for a
non-NULL cache and source.  Returns the classification (true =
recompile) together with the cache whose hit or miss counter was
incremented. -/
def build_cache_needs_recompilation (fs : FS) (cache : BuildCache)
    (source_path : String) : Bool × BuildCache :=
  match build_cache_find cache source_path with
  | none => (true, { cache with misses := cache.misses + 1 })
  | some entry =>
    if entry.valid = false then
      (true, { cache with misses := cache.misses + 1 })
    else
      let current_hash := hash_file_content fs source_path
      if current_hash = 0 then
        (true, { cache with misses := cache.misses + 1 })
      else if current_hash ≠ entry.source_hash then
        (true, { cache with misses := cache.misses + 1 })
      else if depChanged fs entry.deps then
        (true, { cache with misses := cache.misses + 1 })
      else
        (false, { cache with hits := cache.hits + 1 })

/-! ## Dependency graph model (dependency_resolver.h / dependency_resolver.c)

A `SFile` is the registered `SourceFile` record: canonical path, the
ordered list of resolved include paths, and the header flag.  The
transient traversal marks (`visited`, `in_stack`, `sort_order`) live in
a separate `SortState` here instead of inside the node. -/

structure SFile where
  path : String
  includes : List String
  is_header : Bool
deriving DecidableEq

structure Graph where
  files : List SFile
  include_paths : List String
deriving DecidableEq

/-- `dependency_graph_find_file` (dependency_resolver.c:343-356): linear
scan for the first file with an exactly matching path. -/
def dependency_graph_find_file (g : Graph) (path : String) : Option SFile :=
  g.files.find? (fun f => f.path = path)

/-- `get_file_mtime` (cache_metadata.c:59-68). -/
def get_file_mtime (fs : FS) (path : String) : Nat :=
  fs.mtime path

/-- Entry contents written by `build_cache_update`
(cache_metadata.c:311-348): every field is refreshed; the dependency
list is re-captured from the graph's record for the source, truncated
at `MAX_DEPENDENCIES_PER_FILE`, each paired with its current hash. -/
def cache_update_entry (fs : FS) (graph : Graph) (now : Nat)
    (source_path object_path : String) : CacheEntry :=
  let deps :=
    match dependency_graph_find_file graph source_path with
    | none => []
    | some f =>
      (f.includes.take MAX_DEPENDENCIES_PER_FILE).map
        (fun inc => (inc, hash_file_content fs inc))
  { source_path := source_path
    object_path := object_path
    source_hash := hash_file_content fs source_path
    source_mtime := get_file_mtime fs source_path
    last_compiled := now
    deps := deps
    valid := true }

/-- In-place overwrite of the first entry matching the source path,
reporting whether one was found; this is the pointer returned by
`build_cache_find` being written through. -/
def updateEntryList (newEntry : CacheEntry) (source_path : String) :
    List CacheEntry → List CacheEntry × Bool
  | [] => ([], false)
  | e :: rest =>
    if e.source_path = source_path then (newEntry :: rest, true)
    else
      let r := updateEntryList newEntry source_path rest
      (e :: r.1, r.2)

/-- `build_cache_update` (cache_metadata.c:293-349): locate the entry by
source path and overwrite it in place; when absent, append a new entry
unless the store already holds `MAX_CACHE_ENTRIES` entries, in which
case the update is dropped with a warning and the store is unchanged. -/
def build_cache_update (fs : FS) (graph : Graph) (now : Nat) (cache : BuildCache)
    (source_path object_path : String) : BuildCache :=
  let newEntry := cache_update_entry fs graph now source_path object_path
  let r := updateEntryList newEntry source_path cache.entries
  if r.2 then { cache with entries := r.1 }
  else if cache.entries.length ≥ MAX_CACHE_ENTRIES then cache
  else { cache with entries := cache.entries ++ [newEntry] }

/-- `build_cache_clear` (cache_metadata.c:214-223). -/
def build_cache_clear (_cache : BuildCache) : BuildCache :=
  { entries := [], hits := 0, misses := 0, invalidations := 0 }

/-- Helper for `build_cache_invalidate`: flip `valid` on the first entry
matching the path, reporting whether one was found. -/
def invalidateFirst (source_path : String) : List CacheEntry → List CacheEntry × Bool
  | [] => ([], false)
  | e :: rest =>
    if e.source_path = source_path then
      ({ e with valid := false } :: rest, true)
    else
      let r := invalidateFirst source_path rest
      (e :: r.1, r.2)

/-- `build_cache_invalidate` (cache_metadata.c:351-359). -/
def build_cache_invalidate (cache : BuildCache) (source_path : String) : BuildCache :=
  let r := invalidateFirst source_path cache.entries
  { cache with
    entries := r.1
    invalidations := if r.2 then cache.invalidations + 1 else cache.invalidations }

/-- Loop body of `build_cache_invalidate_dependents`
(cache_metadata.c:361-383): every valid entry whose dependency list
contains the changed file is marked invalid, counting invalidations. -/
def invalidateDependentsList (changed_file : String) :
    List CacheEntry → List CacheEntry × Nat
  | [] => ([], 0)
  | e :: rest =>
    let r := invalidateDependentsList changed_file rest
    if e.valid && e.deps.any (fun d => d.1 = changed_file) then
      ({ e with valid := false } :: r.1, r.2 + 1)
    else
      (e :: r.1, r.2)

/-- `build_cache_invalidate_dependents` (cache_metadata.c:361-383). -/
def build_cache_invalidate_dependents (cache : BuildCache) (changed_file : String) :
    BuildCache :=
  let r := invalidateDependentsList changed_file cache.entries
  { cache with entries := r.1, invalidations := cache.invalidations + r.2 }

/-- On-disk cache image as parsed by `build_cache_create`: the stored
format version, the stored entry count, and the entry records actually
readable from the file.  `none` stands for a missing cache file or an
unreadable header. -/
structure CacheFileData where
  version : Nat
  declared_count : Nat
  data : List CacheEntry
deriving DecidableEq

def emptyCache : BuildCache :=
  { entries := [], hits := 0, misses := 0, invalidations := 0 }

/-- `build_cache_create` (cache_metadata.c:80-153), load phase: start
empty; when a cache file is present, reject a version mismatch, an
entry count above `MAX_CACHE_ENTRIES`, or a short read of the entry
records, resetting to empty with a warning in each case. -/
def build_cache_create (disk : Option CacheFileData) : BuildCache :=
  match disk with
  | none => emptyCache
  | some d =>
    if d.version ≠ CACHE_VERSION then emptyCache
    else if d.declared_count > MAX_CACHE_ENTRIES then emptyCache
    else if d.data.length < d.declared_count then emptyCache
    else { entries := d.data.take d.declared_count, hits := 0, misses := 0,
           invalidations := 0 }

/-! ## Topological sort (dependency_resolver.c:572-647)

Traversal marks are kept in a `SortState`: `visited` and `inStack` are
the sets of paths whose flags are set, `order` is the output
`BuildOrder` as a list of paths.  The C recursion terminates because
every call visits a previously unvisited node; here the same bound is
made explicit with a fuel argument of `g.files.length + 1`. -/

structure SortState where
  visited : List String
  inStack : List String
  order : List String
deriving DecidableEq

/-- Include loop of `topological_sort_dfs`
(dependency_resolver.c:583-601): unresolved includes are skipped, an
on-stack dependency is a cycle, an unvisited dependency is recursed
into via the supplied recursive call `dfsF`. -/
def dfsDeps (g : Graph) (dfsF : SFile → SortState → Option SortState) :
    List String → SortState → Option SortState
  | [], st => some st
  | inc :: rest, st =>
    match dependency_graph_find_file g inc with
    | none => dfsDeps g dfsF rest st
    | some dep =>
      if dep.path ∈ st.inStack then none
      else if dep.path ∈ st.visited then dfsDeps g dfsF rest st
      else
        match dfsF dep st with
        | none => none
        | some st' => dfsDeps g dfsF rest st'

/-- `topological_sort_dfs` (dependency_resolver.c:572-610): mark the
node visited and on-stack, visit its resolved includes, then clear the
on-stack flag and append the node to the build order (reverse
postorder).  `none` signals a detected cycle (or exhausted fuel; the C
recursion is bounded by the number of files, made explicit here). -/
def dfs (g : Graph) : Nat → SFile → SortState → Option SortState
  | 0, _, _ => none
  | fuel + 1, f, st =>
    let st1 : SortState :=
      { st with visited := f.path :: st.visited, inStack := f.path :: st.inStack }
    match dfsDeps g (dfs g fuel) f.includes st1 with
    | none => none
    | some st2 =>
      some { st2 with
              inStack := st2.inStack.erase f.path
              order := st2.order ++ [f.path] }

/-- One pass of `dependency_graph_topological_sort`
(dependency_resolver.c:628-644): scan the registry in order, running a
DFS from every not-yet-visited file whose header flag matches the
pass. -/
def sortPass (g : Graph) (processHeaders : Bool) :
    List SFile → SortState → Option SortState
  | [], st => some st
  | f :: rest, st =>
    if f.is_header ≠ processHeaders then sortPass g processHeaders rest st
    else if f.path ∈ st.visited then sortPass g processHeaders rest st
    else
      match dfs g (g.files.length + 1) f st with
      | none => none
      | some st' => sortPass g processHeaders rest st'

/-- `dependency_graph_topological_sort` (dependency_resolver.c:612-647):
reset all marks, then process headers first and sources second,
producing the build order. -/
def topological_sort (g : Graph) : Option (List String) :=
  match sortPass g true g.files { visited := [], inStack := [], order := [] } with
  | none => none
  | some st1 =>
    match sortPass g false g.files st1 with
    | none => none
    | some st2 => some st2.order

/-! ## Include resolver and scanner (dependency_resolver.c:117-269) -/

/-- Directory-of-referencing-file path used by `resolve_include`
(dependency_resolver.c:127-138): everything up to and including the
last slash of the referencing file, or `none` when it has no slash. -/
def dirWithSlash (referencing_file : String) : Option String :=
  let chars := referencing_file.toList
  let rev := chars.reverse
  match rev.dropWhile (fun c => c ≠ '/') with
  | [] => none
  | kept => some (String.mk kept.reverse)

/-- `resolve_include` (dependency_resolver.c:117-158): the
referencing-file directory is tried only when the first character of
the (already-extracted) include name is a double quote; then each
registered include path in order; then the current working directory. -/
def resolve_include (fs : FS) (g : Graph) (include_name referencing_file : String) :
    Option String :=
  let localTry : Option String :=
    if include_name.toList.head? = some '"' then
      match dirWithSlash referencing_file with
      | none => none
      | some dir =>
        let candidate := dir ++ include_name
        if fs.extant candidate then some candidate else none
    else none
  match localTry with
  | some p => some p
  | none =>
    match (g.include_paths.map (fun ip => ip ++ "/" ++ include_name)).find?
        (fun candidate => fs.extant candidate) with
    | some p => some p
    | none =>
      if fs.extant include_name then some include_name else none

/-- C `isspace` set used by `parse_includes`. -/
def cIsSpace (c : Char) : Bool :=
  c = ' ' || c = '\t' || c = '\n' || c = Char.ofNat 11 || c = Char.ofNat 12 || c = '\r'

/-- Include-name extraction of `parse_includes`
(dependency_resolver.c:226-251) for one line: skip leading whitespace,
require a hash, optional whitespace, the literal word include, optional
whitespace, then an opening quote or angle bracket; the returned name
is the text strictly between the delimiters, so the delimiter itself is
never part of the name. -/
def parse_include_line (line : String) : Option String :=
  let p0 := line.toList.dropWhile cIsSpace
  match p0 with
  | '#' :: p1 =>
    let p2 := p1.dropWhile cIsSpace
    if p2.take 7 = "include".toList then
      let p3 := (p2.drop 7).dropWhile cIsSpace
      match p3 with
      | '"' :: rest => some (String.mk (rest.takeWhile (fun c => c ≠ '"')))
      | '<' :: rest => some (String.mk (rest.takeWhile (fun c => c ≠ '>')))
      | _ => none
    else none
  | _ => none

/-! ## Toolchain driver pieces (compile_events.c) -/

/-- `get_object_file_path` (compile_events.c:211-244): take the base
name of the source path (after the last slash or backslash), replace
the final dot-extension with a `.o` suffix (or append `.o` when there
is no dot), and place it under the output directory. -/
def get_object_file_path (source_path output_dir : String) : String :=
  let chars := source_path.toList
  let afterSlash := (chars.reverse.takeWhile (fun c => c ≠ '/' && c ≠ '\\')).reverse
  let objName :=
    if afterSlash.contains '.' then
      ((afterSlash.reverse.dropWhile (fun c => c ≠ '.')).drop 1).reverse ++ ".o".toList
    else
      afterSlash ++ ".o".toList
  output_dir ++ "/" ++ String.mk objName

/-- `BuildConfig` fields relevant to flag handling
(compile_events.h, compile_events.c:30-55). -/
structure BuildConfig where
  cflags : List String
  include_paths : List String
  optimize : Bool
  debug : Bool
  verbose : Bool
deriving DecidableEq

/-- `build_config_create` (compile_events.c:30-55): `optimize` defaults
to true and the default flags `-Wall` and (because optimize is true at
creation time) `-O2` are appended to `cflags`. -/
def build_config_create : BuildConfig :=
  let config : BuildConfig :=
    { cflags := [], include_paths := [], optimize := true, debug := false,
      verbose := false }
  let config := { config with cflags := config.cflags ++ ["-Wall"] }
  if config.optimize then { config with cflags := config.cflags ++ ["-O2"] }
  else config

/-- Configuration step of `main` (ecbuild.c:302-325) after parsing
arguments: the flags `optimize`, `debug`, `verbose` are set on the
already-created config, and `-g` is appended when debug was requested.
No cflag is ever removed. -/
def main_configure (no_optimize debug verbose : Bool) (config : BuildConfig) :
    BuildConfig :=
  let config := { config with
    verbose := verbose
    debug := debug
    optimize := !no_optimize }
  if debug then { config with cflags := config.cflags ++ ["-g"] }
  else config

/-- Compile command line of `compile_source_file`
(compile_events.c:355-373) as the token sequence appended by the
successive snprintf calls: compiler, `-c`, source, `-o`, object, the
`-I` include paths, then every cflag. -/
def compile_command_tokens (compiler : String) (config : BuildConfig)
    (source_path object_path : String) : List String :=
  [compiler, "-c", source_path, "-o", object_path]
    ++ config.include_paths.map (fun ip => "-I" ++ ip)
    ++ config.cflags

/-! ## Cache middleware (eventchains_middleware.c:86-170) -/

/-- Result of one `cache_middleware_execute` run: the cache store after
the call, the `cache_hit` flag left in the event data, whether the next
layer (the actual compilation) was invoked, and the event outcome. -/
structure MWResult where
  cache : BuildCache
  cacheHit : Bool
  compiled : Bool
  success : Bool
deriving DecidableEq

/-- `cache_middleware_execute` (eventchains_middleware.c:86-170) for a
compile event with a non-NULL cache: headers succeed unconditionally as
cache hits; otherwise the decision engine classifies the unit (mutating
the store's counters), a content hit with an existing object file is
skipped, and in every other case the next layer runs and a successful
compilation updates the cache.  `nextOk` models the outcome of the
wrapped compilation. -/
def cache_middleware (fs : FS) (graph : Graph) (now : Nat) (cache : BuildCache)
    (source : SFile) (object_path : String) (nextOk : Bool) : MWResult :=
  if source.is_header then
    { cache := cache, cacheHit := true, compiled := false, success := true }
  else
    let r := build_cache_needs_recompilation fs cache source.path
    if !r.1 && file_exists_cache fs object_path then
      { cache := r.2, cacheHit := true, compiled := false, success := true }
    else
      let c2 :=
        if nextOk then build_cache_update fs graph now r.2 source.path object_path
        else r.2
      { cache := c2, cacheHit := false, compiled := true, success := nextOk }

/-- `BuildStatistics` counters (eventchains_build.h). -/
structure BuildStatistics where
  total_files : Nat
  compiled_files : Nat
  cached_files : Nat
  failed_files : Nat
deriving DecidableEq

/-- Counter update of `statistics_middleware_execute`
(eventchains_middleware.c:277-323) for a compile event, from the final
outcome and the `cache_hit` flag. -/
def statistics_update (stats : BuildStatistics) (success cache_hit : Bool) :
    BuildStatistics :=
  if success then
    if cache_hit then { stats with cached_files := stats.cached_files + 1 }
    else { stats with compiled_files := stats.compiled_files + 1 }
  else
    { stats with failed_files := stats.failed_files + 1 }

/-- Event list of `build_compilation_chain`
(eventchains_build.c:206-268): one compile event per non-header file of
the topological build order, in order; headers are skipped at chain
construction; an empty chain is an error. -/
def build_compilation_chain_events (g : Graph) : Option (List SFile) :=
  match topological_sort g with
  | none => none
  | some order =>
    let files := order.filterMap (fun p => dependency_graph_find_file g p)
    let events := files.filter (fun f => !f.is_header)
    if events.length = 0 then none else some events

/-- Modelled from the spec: the EventChains chain engine
(`event_chain_execute` and middleware composition from
include/eventchains.h) is not part of src/.  Spec section 4.K fixes the
onion order: Statistics outermost, then Logging, then Cache, then
Timing; Logging and Timing do not alter outcomes or counters, so one
event executes the cache layer and then the statistics layer tallies
the final outcome.  Strict fault tolerance aborts on the first
failure. -/
def run_chain (fs : FS) (graph : Graph) (now : Nat) (output_dir : String) :
    List SFile → BuildCache → BuildStatistics → BuildCache × BuildStatistics × Bool
  | [], cache, stats => (cache, stats, true)
  | f :: rest, cache, stats =>
    let obj := get_object_file_path f.path output_dir
    let r := cache_middleware fs graph now cache f obj true
    let stats' := statistics_update stats r.success r.cacheHit
    if r.success then run_chain fs graph now output_dir rest r.cache stats'
    else (r.cache, stats', false)

/-- Classification rule of spec section 4.I, written from the spec's
words: MissCompile exactly when the entry is absent or invalid, the
current source hash is 0 or differs from the stored hash, or some
recorded dependency has a nonzero current hash different from its
recorded hash. -/
def specMissClassification (fs : FS) (cache : BuildCache) (source_path : String) : Bool :=
  match build_cache_find cache source_path with
  | none => true
  | some entry =>
    !entry.valid
      || hash_file_content fs source_path = 0
      || hash_file_content fs source_path ≠ entry.source_hash
      || entry.deps.any (fun d =>
          hash_file_content fs d.1 ≠ 0 && hash_file_content fs d.1 ≠ d.2)

/-! ## Specification-side notions used by the theorems -/

/-- Resolved include edge of the registry: `pu` is a registered path
whose unit lists `pd` among its resolved includes, and `pd` itself is
registered. -/
def Edge (g : Graph) (pu pd : String) : Prop :=
  ∃ u, dependency_graph_find_file g pu = some u ∧ pd ∈ u.includes ∧
    ∃ d, dependency_graph_find_file g pd = some d

/-- Invariant of the traversal state maintained by the two-pass DFS:
the output order has no duplicates, consists of visited nodes whose
on-stack flag is clear, contains every such completed node, is sound
for all registered edges among its members, and the stack only holds
visited nodes. -/
structure Inv (g : Graph) (st : SortState) : Prop where
  nodup : st.order.Nodup
  order_vis : ∀ p ∈ st.order, p ∈ st.visited
  order_not_stack : ∀ p ∈ st.order, p ∉ st.inStack
  done_order : ∀ p, p ∈ st.visited → p ∉ st.inStack → p ∈ st.order
  sound : ∀ pu ∈ st.order, ∀ pd, Edge g pu pd →
    pd ∈ st.order ∧ st.order.indexOf pd < st.order.indexOf pu
  stack_vis : ∀ p ∈ st.inStack, p ∈ st.visited

/-- What one successful traversal step guarantees about the state pair:
the invariant survives, visited grows, the stack is restored, the order
is extended by appending. -/
structure DfsPost (g : Graph) (st st' : SortState) : Prop where
  inv : Inv g st'
  vis_mono : ∀ p ∈ st.visited, p ∈ st'.visited
  stack_eq : st'.inStack = st.inStack
  order_ext : ∃ t, st'.order = st.order ++ t

/-- Contract of the recursive call handed to `dfsDeps`. -/
def DfsOk (g : Graph) (dfsF : SFile → SortState → Option SortState) : Prop :=
  ∀ f st st', dependency_graph_find_file g f.path = some f → Inv g st →
    f.path ∉ st.visited → dfsF f st = some st' →
    DfsPost g st st' ∧ f.path ∈ st'.order

/-- The registered unit found at `p` is a header. -/
def IsHeaderPath (g : Graph) (p : String) : Prop :=
  ∃ d, dependency_graph_find_file g p = some d ∧ d.is_header = true

/-- A single include resolves to a header (or to nothing). -/
def incHeaderOk (g : Graph) (inc : String) : Bool :=
  match dependency_graph_find_file g inc with
  | none => true
  | some d => d.is_header

/-- Every registered header's resolved includes are headers.  Real C
projects satisfy this; the registry admits `.c` files as includes of a
header, which is what breaks the unconditional header-first claim. -/
def hdrClosed (g : Graph) : Bool :=
  g.files.all (fun f => !f.is_header || f.includes.all (fun inc => incHeaderOk g inc))

/-- Header-only traversal contract for the recursive call of `dfsDeps`:
starting from a registered header, every newly appended path names a
registered header. -/
def DfsHdr (g : Graph) (dfsF : SFile → SortState → Option SortState) : Prop :=
  ∀ f st st', f ∈ g.files → f.is_header = true → dfsF f st = some st' →
    ∀ p ∈ st'.order, p ∈ st.order ∨ IsHeaderPath g p

/-! ## Concrete scenario instances -/

/-- Scenario S2 units (spec section 8): `util.h` with no includes,
`math.h` including `util.h`, `main.c` including `math.h`. -/
def utilH : SFile := { path := "util.h", includes := [], is_header := true }

def mathH : SFile := { path := "math.h", includes := ["util.h"], is_header := true }

def mainC : SFile := { path := "main.c", includes := ["math.h"], is_header := false }

def gS2 : Graph := { files := [utilH, mathH, mainC], include_paths := [] }

/-- Filesystem for the second (warm) build of S2: all three files
readable with fixed contents, the object file of `main.c` present. -/
def fsS2 : FS :=
  { contents := fun p =>
      if p = "util.h" then some [1]
      else if p = "math.h" then some [2]
      else if p = "main.c" then some [3]
      else none,
    extant := fun p =>
      p = "build/main.o" || p = "util.h" || p = "math.h" || p = "main.c",
    mtime := fun _ => 0 }

/-- Cache store after the first S2 build: exactly the state
`build_cache_update` leaves for `main.c`. -/
def warmCacheS2 : BuildCache :=
  build_cache_update fsS2 gS2 0 emptyCache "main.c" "build/main.o"

/-- Statistics at the start of a build (`eventchains_build_project`
zeroes them and stores the total file count). -/
def statsS2 : BuildStatistics :=
  { total_files := 3, compiled_files := 0, cached_files := 0, failed_files := 0 }

/-- Registry with a header that includes a `.c` file; the suffix rules
of `is_source_file` admit this. -/
def gHdrC : Graph :=
  { files :=
      [ { path := "a.h", includes := ["b.c"], is_header := true },
        { path := "b.c", includes := [], is_header := false } ],
    include_paths := [] }

/-- Filesystem with one empty, readable source file `a.c` and nothing
else; no object file exists. -/
def fsEmptyA : FS :=
  { contents := fun p => if p = "a.c" then some [] else none,
    extant := fun _ => false,
    mtime := fun _ => 0 }

def srcA : SFile := { path := "a.c", includes := [], is_header := false }

def gA : Graph := { files := [srcA], include_paths := [] }

/-- Valid cache entry for `a.c` matching the hash of its (empty)
current contents, with no recorded dependencies. -/
def cacheA : BuildCache :=
  { entries :=
      [ { source_path := "a.c", object_path := "build/a.o",
          source_hash := FNV_OFFSET_BASIS, source_mtime := 0, last_compiled := 0,
          deps := [], valid := true } ],
    hits := 0, misses := 0, invalidations := 0 }

/-- Filesystem for the include-resolution scenario: `util.h` exists
both next to the referencing file (`src/util.h`) and under the
registered include root (`inc/util.h`). -/
def fsInc : FS :=
  { contents := fun _ => none,
    extant := fun p => p = "src/util.h" || p = "inc/util.h",
    mtime := fun _ => 0 }

def gInc : Graph := { files := [], include_paths := ["inc"] }

/-- A store already holding `MAX_CACHE_ENTRIES` entries, none of them
for `b.c`. -/
def fullCache : BuildCache :=
  { entries := List.replicate MAX_CACHE_ENTRIES
      { source_path := "a.c", object_path := "build/a.o", source_hash := 1,
        source_mtime := 0, last_compiled := 0, deps := [], valid := true },
    hits := 0, misses := 0, invalidations := 0 }

/-! ## Helper lemmas -/

theorem find_file_path {g : Graph} {p : String} {f : SFile}
    (h : dependency_graph_find_file g p = some f) : f.path = p := by
  have hp := List.find?_some h
  simpa using hp

theorem find_file_mem {g : Graph} {p : String} {f : SFile}
    (h : dependency_graph_find_file g p = some f) : f ∈ g.files :=
  List.mem_of_find?_eq_some h

theorem find?_path_self {l : List SFile} (hnd : (l.map SFile.path).Nodup)
    {f : SFile} (hf : f ∈ l) :
    l.find? (fun x => x.path = f.path) = some f := by
  induction l with
  | nil => cases hf
  | cons x rest ih =>
    rcases List.mem_cons.mp hf with rfl | hmem
    · simp [List.find?]
    · rw [List.map_cons] at hnd
      have hne : x.path ≠ f.path := by
        intro he
        have hx : x.path ∈ rest.map SFile.path := he ▸ List.mem_map_of_mem SFile.path hmem
        exact (List.nodup_cons.mp hnd).1 hx
      rw [List.find?_cons_of_neg _ (by simpa using hne)]
      exact ih (List.nodup_cons.mp hnd).2 hmem

theorem find_file_self {g : Graph} (hnd : (g.files.map SFile.path).Nodup)
    {f : SFile} (hf : f ∈ g.files) :
    dependency_graph_find_file g f.path = some f :=
  find?_path_self hnd hf

theorem depChanged_eq_any (fs : FS) (l : List (String × Nat)) :
    depChanged fs l
      = l.any (fun d => hash_file_content fs d.1 ≠ 0 && hash_file_content fs d.1 ≠ d.2) := by
  induction l with
  | nil => rfl
  | cons d rest ih =>
    obtain ⟨dp, dh⟩ := d
    by_cases h0 : hash_file_content fs dp = 0
    · simp [depChanged, h0, ih]
    · by_cases hne : hash_file_content fs dp = dh
      · simp [depChanged, h0, hne, ih]
      · simp [depChanged, h0, hne]

theorem needs_eq_spec (fs : FS) (cache : BuildCache) (source_path : String) :
    (build_cache_needs_recompilation fs cache source_path).1
      = specMissClassification fs cache source_path := by
  unfold build_cache_needs_recompilation specMissClassification
  cases h : build_cache_find cache source_path with
  | none => rfl
  | some entry =>
    by_cases hv : entry.valid
    · by_cases h0 : hash_file_content fs source_path = 0
      · simp [hv, h0]
      · by_cases hs : hash_file_content fs source_path = entry.source_hash
        · rw [hs] at h0
          by_cases hd : depChanged fs entry.deps
          · simp [hv, hs, h0, hd]
            have hd' := hd
            rw [depChanged_eq_any] at hd'
            simpa using hd'
          · simp [hv, hs, h0, hd]
            have hd' := hd
            rw [depChanged_eq_any] at hd'
            simpa using hd'
        · simp [hv, h0, hs]
    · simp [hv]

theorem needs_counters (fs : FS) (cache : BuildCache) (source_path : String) :
    ((build_cache_needs_recompilation fs cache source_path).2.misses
        = (if (build_cache_needs_recompilation fs cache source_path).1 then
            cache.misses + 1 else cache.misses))
    ∧ ((build_cache_needs_recompilation fs cache source_path).2.hits
        = (if (build_cache_needs_recompilation fs cache source_path).1 then
            cache.hits else cache.hits + 1))
    ∧ (build_cache_needs_recompilation fs cache source_path).2.entries = cache.entries
    ∧ (build_cache_needs_recompilation fs cache source_path).2.invalidations
        = cache.invalidations := by
  unfold build_cache_needs_recompilation
  cases h : build_cache_find cache source_path with
  | none => simp
  | some entry =>
    by_cases hv : entry.valid
    · by_cases h0 : hash_file_content fs source_path = 0
      · simp [hv, h0]
      · by_cases hs : hash_file_content fs source_path = entry.source_hash
        · rw [hs] at h0
          by_cases hd : depChanged fs entry.deps
          · simp [hv, hs, h0, hd]
          · simp [hv, hs, h0, hd]
        · simp [hv, h0, hs]
    · simp [hv]

/-! ## Claim C1 -/

/-- C1: `build_cache_needs_recompilation` classifies a unit as
MissCompile (true, miss counter incremented) exactly when the entry is
absent or invalid, the current source hash is 0, the current source
hash differs from the stored one, or some recorded dependency has a
nonzero current hash differing from its recorded hash (a zero current
dependency hash is tolerated); in all remaining cases it classifies
HitSkip (false) and increments the hit counter.  The entries themselves
are untouched either way. -/
theorem needs_recompilation_matches_spec (fs : FS) (cache : BuildCache)
    (source_path : String) :
    ((build_cache_needs_recompilation fs cache source_path).1
        = specMissClassification fs cache source_path)
    ∧ ((build_cache_needs_recompilation fs cache source_path).2.misses
        = (if specMissClassification fs cache source_path then
            cache.misses + 1 else cache.misses))
    ∧ ((build_cache_needs_recompilation fs cache source_path).2.hits
        = (if specMissClassification fs cache source_path then
            cache.hits else cache.hits + 1))
    ∧ (build_cache_needs_recompilation fs cache source_path).2.entries
        = cache.entries := by
  have he := needs_eq_spec fs cache source_path
  have hc := needs_counters fs cache source_path
  refine ⟨he, ?_, ?_, hc.2.2.1⟩
  · rw [← he]; exact hc.1
  · rw [← he]; exact hc.2.1

/-! ## Cache operation lemmas -/

theorem updateEntryList_length (newEntry : CacheEntry) (source_path : String)
    (l : List CacheEntry) :
    (updateEntryList newEntry source_path l).1.length = l.length := by
  induction l with
  | nil => rfl
  | cons e rest ih =>
    by_cases h : e.source_path = source_path
    · simp [updateEntryList, h]
    · simp [updateEntryList, h, ih]

theorem updateEntryList_not_found (newEntry : CacheEntry) (source_path : String)
    (l : List CacheEntry) (h : ∀ e ∈ l, e.source_path ≠ source_path) :
    updateEntryList newEntry source_path l = (l, false) := by
  induction l with
  | nil => rfl
  | cons e rest ih =>
    have he : e.source_path ≠ source_path := h e (List.mem_cons_self e rest)
    simp [updateEntryList, he, ih (fun x hx => h x (List.mem_cons_of_mem e hx))]

theorem update_preserves_counters (fs : FS) (graph : Graph) (now : Nat)
    (cache : BuildCache) (source_path object_path : String) :
    (build_cache_update fs graph now cache source_path object_path).hits = cache.hits
    ∧ (build_cache_update fs graph now cache source_path object_path).misses
        = cache.misses
    ∧ (build_cache_update fs graph now cache source_path object_path).invalidations
        = cache.invalidations := by
  unfold build_cache_update
  by_cases h : (updateEntryList
      (cache_update_entry fs graph now source_path object_path)
      source_path cache.entries).2
  · simp [h]
  · by_cases hfull : cache.entries.length ≥ MAX_CACHE_ENTRIES
    · simp [h, hfull]
    · simp [h, hfull]

theorem invalidateFirst_length (source_path : String) (l : List CacheEntry) :
    (invalidateFirst source_path l).1.length = l.length := by
  induction l with
  | nil => rfl
  | cons e rest ih =>
    by_cases h : e.source_path = source_path
    · simp [invalidateFirst, h]
    · simp [invalidateFirst, h, ih]

theorem invalidateDependentsList_length (changed_file : String) (l : List CacheEntry) :
    (invalidateDependentsList changed_file l).1.length = l.length := by
  induction l with
  | nil => rfl
  | cons e rest ih =>
    by_cases h : e.valid && e.deps.any (fun d => d.1 = changed_file)
    · simp [invalidateDependentsList, h, ih]
    · simp [invalidateDependentsList, h, ih]

/-! ## Claim C7 -/

/-- C7: when `build_cache_update` is called for a source path with no
existing entry while the store already holds `MAX_CACHE_ENTRIES`
entries, the update is dropped and the store is left entirely
unchanged. -/
theorem cache_update_full_drops (fs : FS) (graph : Graph) (now : Nat)
    (cache : BuildCache) (source_path object_path : String)
    (hfind : build_cache_find cache source_path = none)
    (hfull : cache.entries.length ≥ MAX_CACHE_ENTRIES) :
    build_cache_update fs graph now cache source_path object_path = cache := by
  unfold build_cache_update
  have hnone : ∀ e ∈ cache.entries, e.source_path ≠ source_path := by
    intro e he
    have := List.find?_eq_none.mp hfind e he
    simpa using this
  simp only [updateEntryList_not_found _ _ _ hnone]
  simp [hfull]

/-- Witness for C7 at a store holding exactly `MAX_CACHE_ENTRIES`
entries, none of them keyed by the updated path. -/
theorem cache_update_full_drops_witness :
    build_cache_find fullCache "b.c" = none
    ∧ fullCache.entries.length ≥ MAX_CACHE_ENTRIES
    ∧ build_cache_update fsEmptyA gA 0 fullCache "b.c" "build/b.o" = fullCache := by
  have h1 : build_cache_find fullCache "b.c" = none := by
    rw [build_cache_find, List.find?_eq_none]
    intro e he
    have : e.source_path = "a.c" := by
      have := List.eq_of_mem_replicate he
      rw [this]
    simp [this]
  have h2 : fullCache.entries.length ≥ MAX_CACHE_ENTRIES := by
    simp [fullCache]
  exact ⟨h1, h2, cache_update_full_drops fsEmptyA gA 0 fullCache "b.c" "build/b.o" h1 h2⟩

/-! ## Claim C9 -/

/-- C9: every cache operation preserves the bound
`entry_count ≤ MAX_CACHE_ENTRIES`: loading rejects an oversized on-disk
count by resetting to empty, updating refuses to append at the bound,
clearing zeroes the count, and invalidation in either form never
changes the count. -/
theorem cache_entry_bound_invariant :
    (∀ disk, (build_cache_create disk).entries.length ≤ MAX_CACHE_ENTRIES)
    ∧ (∀ fs graph now cache source_path object_path,
        cache.entries.length ≤ MAX_CACHE_ENTRIES →
        (build_cache_update fs graph now cache source_path object_path).entries.length
          ≤ MAX_CACHE_ENTRIES)
    ∧ (∀ cache, (build_cache_clear cache).entries.length = 0)
    ∧ (∀ cache source_path,
        (build_cache_invalidate cache source_path).entries.length
          = cache.entries.length)
    ∧ (∀ cache changed_file,
        (build_cache_invalidate_dependents cache changed_file).entries.length
          = cache.entries.length) := by
  refine ⟨?_, ?_, ?_, ?_, ?_⟩
  · intro disk
    cases disk with
    | none => simp [build_cache_create, emptyCache]
    | some d =>
      by_cases hv : d.version ≠ CACHE_VERSION
      · simp [build_cache_create, hv, emptyCache]
      · by_cases hc : d.declared_count > MAX_CACHE_ENTRIES
        · simp [build_cache_create, hv, hc, emptyCache]
        · by_cases hs : d.data.length < d.declared_count
          · simp [build_cache_create, hv, hc, hs, emptyCache]
          · simp [build_cache_create, hv, hc, hs, emptyCache]
            omega
  · intro fs graph now cache source_path object_path hle
    unfold build_cache_update
    by_cases h : (updateEntryList
        (cache_update_entry fs graph now source_path object_path)
        source_path cache.entries).2
    · simpa [h, updateEntryList_length] using hle
    · by_cases hfull : cache.entries.length ≥ MAX_CACHE_ENTRIES
      · simpa [h, hfull] using hle
      · simp [h, hfull]
        omega
  · intro cache
    simp [build_cache_clear]
  · intro cache source_path
    simp [build_cache_invalidate, invalidateFirst_length]
  · intro cache changed_file
    simp [build_cache_invalidate_dependents, invalidateDependentsList_length]

/-- Witness for C9 applying the bound-preservation of
`build_cache_update` at the full store. -/
theorem cache_entry_bound_invariant_witness :
    fullCache.entries.length ≤ MAX_CACHE_ENTRIES
    ∧ (build_cache_update fsEmptyA gA 0 fullCache "c.c" "build/c.o").entries.length
        ≤ MAX_CACHE_ENTRIES :=
  ⟨by simp [fullCache],
    cache_entry_bound_invariant.2.1 fsEmptyA gA 0 fullCache "c.c" "build/c.o"
      (by simp [fullCache])⟩

/-! ## Claim C10 -/

/-- C10: hashing an existing, readable, empty file yields the FNV-1a
offset basis, which is nonzero; consequently an empty source is never
confused with the reserved could-not-read value 0, and a unit whose
valid entry stores that basis (with unchanged dependencies) is
classified HitSkip rather than being forced to MissCompile by the
hash-is-zero rule. -/
theorem empty_file_hash_is_basis (fs : FS) (path : String)
    (hread : fs.contents path = some []) :
    hash_file_content fs path = FNV_OFFSET_BASIS
    ∧ hash_file_content fs path ≠ 0
    ∧ ∀ cache entry, build_cache_find cache path = some entry →
        entry.valid = true → entry.source_hash = FNV_OFFSET_BASIS →
        depChanged fs entry.deps = false →
        (build_cache_needs_recompilation fs cache path).1 = false := by
  have hh : hash_file_content fs path = FNV_OFFSET_BASIS := by
    unfold hash_file_content
    rw [hread]
    rfl
  refine ⟨hh, by rw [hh]; decide, ?_⟩
  intro cache entry hfind hv hsh hdep
  unfold build_cache_needs_recompilation
  rw [hfind]
  simp [hv, hh, hsh, hdep, FNV_OFFSET_BASIS]

/-- Witness for C10 at a concrete filesystem holding an empty `a.c`
and a store whose entry for it records the offset basis. -/
theorem empty_file_hash_is_basis_witness :
    hash_file_content fsEmptyA "a.c" = FNV_OFFSET_BASIS
    ∧ (build_cache_needs_recompilation fsEmptyA cacheA "a.c").1 = false :=
  ⟨(empty_file_hash_is_basis fsEmptyA "a.c" rfl).1,
    (empty_file_hash_is_basis fsEmptyA "a.c" rfl).2.2 cacheA
      { source_path := "a.c", object_path := "build/a.o",
        source_hash := FNV_OFFSET_BASIS, source_mtime := 0, last_compiled := 0,
        deps := [], valid := true }
      (by decide) rfl rfl rfl⟩

/-! ## Claim C8 -/

/-- C8: the claim says `--no-optimize` (or `-O0`) drops the default
`-O2`; in the code, `build_config_create` appends `-O2` before the
option is consulted and `main` only flips the `optimize` flag, so the
compile command line still contains `-O2`.  This evaluates the embedded
code at the failing input. -/
theorem no_optimize_keeps_O2 :
    (main_configure true false false build_config_create).optimize = false
    ∧ "-O2" ∈ (main_configure true false false build_config_create).cflags
    ∧ "-O2" ∈ compile_command_tokens "gcc"
        (main_configure true false false build_config_create)
        "main.c" "build/main.o" := by
  decide

/-! ## Claim C5 -/

/-- C5: the claim says a quote-form include existing next to the
referencing file resolves to the referencing file's directory first.
In the code, `parse_includes` strips the quotes before calling
`resolve_include`, whose referencing-directory branch fires only when
the extracted name still begins with a quote character — so it is dead,
and the include root wins even though `src/util.h` exists.  This
evaluates the embedded code at the failing input. -/
theorem quote_include_skips_referencing_dir :
    parse_include_line "#include \"util.h\"" = some "util.h"
    ∧ fsInc.extant "src/util.h" = true
    ∧ resolve_include fsInc gInc "util.h" "src/main.c" = some "inc/util.h" := by
  decide

/-! ## Claim C3 -/

/-- C3 counterexample: a unit classified HitSkip whose object file is
missing is downgraded to recompilation, but the claim that the hit and
miss counters are left unchanged fails — the classification itself has
already incremented the hit counter from 0 to 1. -/
theorem downgrade_hit_counter_increments :
    (build_cache_needs_recompilation fsEmptyA cacheA "a.c").1 = false
    ∧ file_exists_cache fsEmptyA "build/a.o" = false
    ∧ (cache_middleware fsEmptyA gA 0 cacheA srcA "build/a.o" true).compiled = true
    ∧ cacheA.hits = 0
    ∧ (cache_middleware fsEmptyA gA 0 cacheA srcA "build/a.o" true).cache.hits = 1 := by
  decide

/-- C3 amended: when the decision engine classifies a non-header unit
HitSkip but its object file is missing, the cache layer downgrades the
unit to recompilation; the downgrade itself adds nothing further to the
counters, but the HitSkip classification has already incremented the
store's hit counter by one, and the miss counter is unchanged. -/
theorem downgrade_recompiles_and_counts_hit (fs : FS) (graph : Graph) (now : Nat)
    (cache : BuildCache) (source : SFile) (object_path : String) (nextOk : Bool)
    (hhdr : source.is_header = false)
    (hhit : (build_cache_needs_recompilation fs cache source.path).1 = false)
    (hobj : file_exists_cache fs object_path = false) :
    (cache_middleware fs graph now cache source object_path nextOk).compiled = true
    ∧ (cache_middleware fs graph now cache source object_path nextOk).cacheHit = false
    ∧ (cache_middleware fs graph now cache source object_path nextOk).cache.hits
        = cache.hits + 1
    ∧ (cache_middleware fs graph now cache source object_path nextOk).cache.misses
        = cache.misses := by
  have hc := needs_counters fs cache source.path
  have hhits : (build_cache_needs_recompilation fs cache source.path).2.hits
      = cache.hits + 1 := by
    rw [hc.2.1, hhit]
    simp
  have hmisses : (build_cache_needs_recompilation fs cache source.path).2.misses
      = cache.misses := by
    rw [hc.1, hhit]
    simp
  unfold cache_middleware
  simp [hhdr, hobj]
  cases nextOk with
  | true =>
    have hu := update_preserves_counters fs graph now
      (build_cache_needs_recompilation fs cache source.path).2 source.path object_path
    simp [hu.1, hu.2.1, hhits, hmisses]
  | false =>
    simp [hhits, hmisses]

/-- Witness for the amended C3 at the concrete downgrade scenario. -/
theorem downgrade_recompiles_and_counts_hit_witness :
    (cache_middleware fsEmptyA gA 0 cacheA srcA "build/a.o" false).cache.hits
        = cacheA.hits + 1
    ∧ (cache_middleware fsEmptyA gA 0 cacheA srcA "build/a.o" false).cache.misses
        = cacheA.misses :=
  ⟨(downgrade_recompiles_and_counts_hit fsEmptyA gA 0 cacheA srcA "build/a.o" false
      (by decide) (by decide) (by decide)).2.2.1,
    (downgrade_recompiles_and_counts_hit fsEmptyA gA 0 cacheA srcA "build/a.o" false
      (by decide) (by decide) (by decide)).2.2.2⟩

/-! ## Claim C4 -/

theorem needs_entries_only (fs : FS) (c1 c2 : BuildCache) (p : String)
    (h : c1.entries = c2.entries) :
    (build_cache_needs_recompilation fs c1 p).1
      = (build_cache_needs_recompilation fs c2 p).1 := by
  unfold build_cache_needs_recompilation build_cache_find
  rw [h]
  cases c2.entries.find? (fun e => e.source_path = p) with
  | none => rfl
  | some entry =>
    dsimp only
    split_ifs <;> rfl

/-- Warm rebuild: when every chain event classifies as a content hit
against the store's entries and its object file exists, the run
succeeds, compiles nothing, counts every event as cached, and leaves
the entries unchanged. -/
theorem run_chain_warm (fs : FS) (g : Graph) (now : Nat) (dir : String)
    (cache : BuildCache) :
    ∀ (events : List SFile) (c : BuildCache) (stats : BuildStatistics),
      c.entries = cache.entries →
      (∀ f ∈ events, f.is_header = false
        ∧ (build_cache_needs_recompilation fs cache f.path).1 = false
        ∧ file_exists_cache fs (get_object_file_path f.path dir) = true) →
      (run_chain fs g now dir events c stats).2.2 = true
      ∧ (run_chain fs g now dir events c stats).2.1.compiled_files
          = stats.compiled_files
      ∧ (run_chain fs g now dir events c stats).2.1.cached_files
          = stats.cached_files + events.length
      ∧ (run_chain fs g now dir events c stats).1.entries = cache.entries := by
  intro events
  induction events with
  | nil =>
    intro c stats hent _
    simp [run_chain, hent]
  | cons f rest ih =>
    intro c stats hent hall
    obtain ⟨hhdr, hhit, hobj⟩ := hall f (List.mem_cons_self f rest)
    have hc1 : (build_cache_needs_recompilation fs c f.path).1 = false := by
      rw [needs_entries_only fs c cache f.path hent]
      exact hhit
    have hmw : cache_middleware fs g now c f (get_object_file_path f.path dir) true
        = { cache := (build_cache_needs_recompilation fs c f.path).2,
            cacheHit := true, compiled := false, success := true } := by
      unfold cache_middleware
      simp [hhdr, hc1, hobj]
    have hent2 : (build_cache_needs_recompilation fs c f.path).2.entries
        = cache.entries := by
      rw [(needs_counters fs c f.path).2.2.1, hent]
    have hrec := ih (build_cache_needs_recompilation fs c f.path).2
      { stats with cached_files := stats.cached_files + 1 }
      hent2 (fun x hx => hall x (List.mem_cons_of_mem f hx))
    simp only [run_chain, hmw, statistics_update, if_true]
    refine ⟨hrec.1, hrec.2.1, ?_, hrec.2.2.2⟩
    rw [hrec.2.2.1]
    simp [List.length_cons]
    omega

/-- C4 counterexample: building S2 twice without modifications yields,
on the second build, compiled_files = 0 but cached_files = 1 rather
than the claimed 3 — the chain holds one event because headers are
skipped at chain construction. -/
theorem second_build_cached_is_one :
    build_compilation_chain_events gS2 = some [mainC]
    ∧ (run_chain fsS2 gS2 1 "build" [mainC] warmCacheS2 statsS2).2.1.compiled_files = 0
    ∧ (run_chain fsS2 gS2 1 "build" [mainC] warmCacheS2 statsS2).2.1.cached_files = 1
    ∧ ¬ (run_chain fsS2 gS2 1 "build" [mainC] warmCacheS2 statsS2).2.1.cached_files
        = 3 := by
  decide

/-- C4 amended: a second, unmodified build produces compiled_files = 0
and cached_files equal to the number of chain events, which are exactly
the Source (non-header) units of the build order; headers are never
added to the chain, so for the S2 project the second build reports
compiled = 0 and cached = 1, not 3. -/
theorem warm_second_build (fs : FS) (g : Graph) (now : Nat) (dir : String)
    (events : List SFile) (cache : BuildCache) (stats : BuildStatistics)
    (hevents : build_compilation_chain_events g = some events)
    (hwarm : ∀ f ∈ events,
        (build_cache_needs_recompilation fs cache f.path).1 = false
        ∧ file_exists_cache fs (get_object_file_path f.path dir) = true) :
    (∀ f ∈ events, f.is_header = false)
    ∧ (run_chain fs g now dir events cache stats).2.1.compiled_files
        = stats.compiled_files
    ∧ (run_chain fs g now dir events cache stats).2.1.cached_files
        = stats.cached_files + events.length := by
  have hnoh : ∀ f ∈ events, f.is_header = false := by
    unfold build_compilation_chain_events at hevents
    cases hts : topological_sort g with
    | none => rw [hts] at hevents; cases hevents
    | some order =>
      rw [hts] at hevents
      simp only at hevents
      split at hevents
      · cases hevents
      · have he := Option.some.inj hevents
        intro f hf
        rw [← he] at hf
        have := (List.mem_filter.mp hf).2
        simpa using this
  have hr := run_chain_warm fs g now dir cache events cache stats rfl
    (fun f hf => ⟨hnoh f hf, (hwarm f hf).1, (hwarm f hf).2⟩)
  exact ⟨hnoh, hr.2.1, hr.2.2.1⟩

/-- Witness for the amended C4 at the S2 warm-rebuild scenario. -/
theorem warm_second_build_witness :
    (∀ f ∈ [mainC], f.is_header = false)
    ∧ (run_chain fsS2 gS2 1 "build" [mainC] warmCacheS2 statsS2).2.1.compiled_files
        = statsS2.compiled_files
    ∧ (run_chain fsS2 gS2 1 "build" [mainC] warmCacheS2 statsS2).2.1.cached_files
        = statsS2.cached_files + [mainC].length :=
  warm_second_build fsS2 gS2 1 "build" [mainC] warmCacheS2 statsS2
    (by decide) (by decide)

/-! ## Topological sort invariants (claims C2 and C6) -/

theorem DfsPost.order_mem {g : Graph} {st st' : SortState} (h : DfsPost g st st')
    {p : String} (hp : p ∈ st.order) : p ∈ st'.order := by
  obtain ⟨t, ht⟩ := h.order_ext
  rw [ht]
  exact List.mem_append_left t hp

theorem DfsPost.comp {g : Graph} {st1 st2 st3 : SortState}
    (h1 : DfsPost g st1 st2) (h2 : DfsPost g st2 st3) : DfsPost g st1 st3 where
  inv := h2.inv
  vis_mono := fun p hp => h2.vis_mono p (h1.vis_mono p hp)
  stack_eq := by rw [h2.stack_eq, h1.stack_eq]
  order_ext := by
    obtain ⟨t1, e1⟩ := h1.order_ext
    obtain ⟨t2, e2⟩ := h2.order_ext
    exact ⟨t1 ++ t2, by rw [e2, e1, List.append_assoc]⟩

theorem DfsPost.of_inv {g : Graph} {st : SortState} (h : Inv g st) : DfsPost g st st where
  inv := h
  vis_mono := fun _ hp => hp
  stack_eq := rfl
  order_ext := ⟨[], by simp⟩

theorem Inv.push {g : Graph} {st : SortState} (hinv : Inv g st) {p : String}
    (hnv : p ∉ st.visited) :
    Inv g { st with visited := p :: st.visited, inStack := p :: st.inStack } where
  nodup := hinv.nodup
  order_vis := fun q hq => List.mem_cons_of_mem p (hinv.order_vis q hq)
  order_not_stack := fun q hq hq' => by
    rcases List.mem_cons.mp hq' with rfl | hs
    · exact hnv (hinv.order_vis q hq)
    · exact hinv.order_not_stack q hq hs
  done_order := fun q hqv hqs => by
    rcases List.mem_cons.mp hqv with rfl | hv
    · exact absurd (List.mem_cons_self q st.inStack) hqs
    · exact hinv.done_order q hv (fun hh => hqs (List.mem_cons_of_mem p hh))
  sound := fun pu hpu pd hedge => hinv.sound pu hpu pd hedge
  stack_vis := fun q hq => by
    rcases List.mem_cons.mp hq with rfl | hs
    · exact List.mem_cons_self q st.visited
    · exact List.mem_cons_of_mem p (hinv.stack_vis q hs)

theorem Inv.empty (g : Graph) : Inv g { visited := [], inStack := [], order := [] } where
  nodup := List.nodup_nil
  order_vis := fun p hp => absurd hp (List.not_mem_nil p)
  order_not_stack := fun p hp => absurd hp (List.not_mem_nil p)
  done_order := fun p hp _ => absurd hp (List.not_mem_nil p)
  sound := fun pu hpu => absurd hpu (List.not_mem_nil pu)
  stack_vis := fun p hp => absurd hp (List.not_mem_nil p)

theorem dfsDeps_post {g : Graph} {dfsF : SFile → SortState → Option SortState}
    (hF : DfsOk g dfsF) :
    ∀ (incs : List String) (st st' : SortState), Inv g st →
      dfsDeps g dfsF incs st = some st' →
      DfsPost g st st'
      ∧ ∀ inc ∈ incs, ∀ d, dependency_graph_find_file g inc = some d →
          d.path ∈ st'.order := by
  intro incs
  induction incs with
  | nil =>
    intro st st' hinv hrun
    have h : st = st' := by simpa [dfsDeps] using hrun
    subst h
    exact ⟨DfsPost.of_inv hinv, by simp⟩
  | cons inc rest ih =>
    intro st st' hinv hrun
    simp only [dfsDeps] at hrun
    cases hfind : dependency_graph_find_file g inc with
    | none =>
      rw [hfind] at hrun
      have h := ih st st' hinv hrun
      refine ⟨h.1, ?_⟩
      intro i hi d hd
      rcases List.mem_cons.mp hi with rfl | hr
      · rw [hfind] at hd; cases hd
      · exact h.2 i hr d hd
    | some dep =>
      rw [hfind] at hrun
      dsimp only at hrun
      by_cases hstk : dep.path ∈ st.inStack
      · rw [if_pos hstk] at hrun; cases hrun
      · rw [if_neg hstk] at hrun
        by_cases hvis : dep.path ∈ st.visited
        · rw [if_pos hvis] at hrun
          have h := ih st st' hinv hrun
          have hdo : dep.path ∈ st.order := hinv.done_order dep.path hvis hstk
          refine ⟨h.1, ?_⟩
          intro i hi d hd
          rcases List.mem_cons.mp hi with rfl | hr
          · rw [hfind] at hd
            obtain rfl := Option.some.inj hd
            exact h.1.order_mem hdo
          · exact h.2 i hr d hd
        · rw [if_neg hvis] at hrun
          cases hmid : dfsF dep st with
          | none => rw [hmid] at hrun; cases hrun
          | some stm =>
            rw [hmid] at hrun
            have hfd : dependency_graph_find_file g dep.path = some dep := by
              rw [find_file_path hfind]; exact hfind
            have h1 := hF dep st stm hfd hinv hvis hmid
            have h2 := ih stm st' h1.1.inv hrun
            refine ⟨h1.1.comp h2.1, ?_⟩
            intro i hi d hd
            rcases List.mem_cons.mp hi with rfl | hr
            · rw [hfind] at hd
              obtain rfl := Option.some.inj hd
              exact h2.1.order_mem h1.2
            · exact h2.2 i hr d hd

theorem dfs_post (g : Graph) : ∀ fuel, DfsOk g (dfs g fuel) := by
  intro fuel
  induction fuel with
  | zero =>
    intro f st st' _ _ _ hrun
    cases hrun
  | succ n ih =>
    intro f st st' hf hinv hnv hrun
    simp only [dfs] at hrun
    cases hdeps : dfsDeps g (dfs g n) f.includes
        { st with visited := f.path :: st.visited, inStack := f.path :: st.inStack } with
    | none => rw [hdeps] at hrun; cases hrun
    | some st2 =>
      rw [hdeps] at hrun
      obtain rfl := Option.some.inj hrun
      have hdp := dfsDeps_post ih f.includes _ st2 (hinv.push hnv) hdeps
      have hstk2 : st2.inStack = f.path :: st.inStack := hdp.1.stack_eq
      have hmemstk : f.path ∈ st2.inStack := by
        rw [hstk2]; exact List.mem_cons_self _ _
      have hnotord2 : f.path ∉ st2.order := fun hcon =>
        hdp.1.inv.order_not_stack f.path hcon hmemstk
      have hfnstk : f.path ∉ st.inStack := fun hcon => hnv (hinv.stack_vis f.path hcon)
      have herase : st2.inStack.erase f.path = st.inStack := by
        rw [hstk2]; exact List.erase_cons_head f.path st.inStack
      constructor
      · refine { inv := ?_, vis_mono := ?_, stack_eq := ?_, order_ext := ?_ }
        · refine { nodup := ?_, order_vis := ?_, order_not_stack := ?_,
                   done_order := ?_, sound := ?_, stack_vis := ?_ }
          · refine List.nodup_append.mpr ⟨hdp.1.inv.nodup, List.nodup_singleton _, ?_⟩
            intro a ha hb
            rw [List.mem_singleton] at hb
            subst hb
            exact hnotord2 ha
          · intro q hq
            rcases List.mem_append.mp hq with h | h
            · exact hdp.1.inv.order_vis q h
            · rw [List.mem_singleton] at h
              subst h
              exact hdp.1.vis_mono _ (List.mem_cons_self _ _)
          · intro q hq
            rw [herase]
            rcases List.mem_append.mp hq with h | h
            · intro hcon
              exact hdp.1.inv.order_not_stack q h
                (by rw [hstk2]; exact List.mem_cons_of_mem _ hcon)
            · rw [List.mem_singleton] at h
              subst h
              exact hfnstk
          · intro q hqv hqs
            rw [herase] at hqs
            by_cases hqf : q = f.path
            · subst hqf
              exact List.mem_append_right _ (List.mem_singleton_self _)
            · have hq2 : q ∉ st2.inStack := by
                rw [hstk2]
                intro hcon
                rcases List.mem_cons.mp hcon with h | h
                · exact hqf h
                · exact hqs h
              exact List.mem_append_left _ (hdp.1.inv.done_order q hqv hq2)
          · intro pu hpu pd hedge
            rcases List.mem_append.mp hpu with hin | hin
            · have hs := hdp.1.inv.sound pu hin pd hedge
              refine ⟨List.mem_append_left _ hs.1, ?_⟩
              rw [List.indexOf_append_of_mem hs.1, List.indexOf_append_of_mem hin]
              exact hs.2
            · rw [List.mem_singleton] at hin
              subst hin
              obtain ⟨u, hu, hpd, d, hd⟩ := hedge
              rw [hf] at hu
              obtain rfl := Option.some.inj hu
              have hpdo : d.path ∈ st2.order := hdp.2 pd hpd d hd
              rw [find_file_path hd] at hpdo
              refine ⟨List.mem_append_left _ hpdo, ?_⟩
              rw [List.indexOf_append_of_mem hpdo,
                  List.indexOf_append_of_not_mem hnotord2]
              have hlt : List.indexOf pd st2.order < st2.order.length :=
                List.indexOf_lt_length.mpr hpdo
              simp [List.indexOf_cons_self]
              omega
          · intro q hq
            rw [herase] at hq
            exact hdp.1.vis_mono q (List.mem_cons_of_mem _ (hinv.stack_vis q hq))
        · exact fun q hq => hdp.1.vis_mono q (List.mem_cons_of_mem _ hq)
        · exact herase
        · obtain ⟨t, ht⟩ := hdp.1.order_ext
          exact ⟨t ++ [f.path], by rw [ht]; simp⟩
      · exact List.mem_append_right _ (List.mem_singleton_self _)

theorem sortPass_post {g : Graph} (hnd : (g.files.map SFile.path).Nodup) (hdr : Bool) :
    ∀ (l : List SFile) (st st' : SortState), (∀ f ∈ l, f ∈ g.files) → Inv g st →
      sortPass g hdr l st = some st' →
      DfsPost g st st'
      ∧ ∀ f ∈ l, f.is_header = hdr → f.path ∈ st'.visited := by
  intro l
  induction l with
  | nil =>
    intro st st' _ hinv hrun
    have h : st = st' := by simpa [sortPass] using hrun
    subst h
    exact ⟨DfsPost.of_inv hinv, by simp⟩
  | cons f rest ih =>
    intro st st' hmem hinv hrun
    simp only [sortPass] at hrun
    by_cases hflag : f.is_header ≠ hdr
    · rw [if_pos hflag] at hrun
      have h := ih st st' (fun x hx => hmem x (List.mem_cons_of_mem f hx)) hinv hrun
      refine ⟨h.1, ?_⟩
      intro x hx hxh
      rcases List.mem_cons.mp hx with rfl | hr
      · exact absurd hxh hflag
      · exact h.2 x hr hxh
    · rw [if_neg hflag] at hrun
      by_cases hvis : f.path ∈ st.visited
      · rw [if_pos hvis] at hrun
        have h := ih st st' (fun x hx => hmem x (List.mem_cons_of_mem f hx)) hinv hrun
        refine ⟨h.1, ?_⟩
        intro x hx hxh
        rcases List.mem_cons.mp hx with rfl | hr
        · exact h.1.vis_mono _ hvis
        · exact h.2 x hr hxh
      · rw [if_neg hvis] at hrun
        cases hdfs : dfs g (g.files.length + 1) f st with
        | none => rw [hdfs] at hrun; cases hrun
        | some stm =>
          rw [hdfs] at hrun
          have hself := find_file_self hnd (hmem f (List.mem_cons_self f rest))
          have h1 := dfs_post g (g.files.length + 1) f st stm hself hinv hvis hdfs
          have h2 := ih stm st' (fun x hx => hmem x (List.mem_cons_of_mem f hx))
            h1.1.inv hrun
          refine ⟨h1.1.comp h2.1, ?_⟩
          intro x hx hxh
          rcases List.mem_cons.mp hx with rfl | hr
          · exact h2.1.vis_mono _ (h1.1.inv.order_vis _ h1.2)
          · exact h2.2 x hr hxh

/-! ## Claim C2 -/

/-- C2: whenever the topological sort succeeds on a registry with
distinct canonical paths, every registered unit appears after each of
its resolved, registered includes in the produced build order. -/
theorem topological_sort_order_sound (g : Graph) (order : List String)
    (hnd : (g.files.map SFile.path).Nodup)
    (hsort : topological_sort g = some order)
    (u : SFile) (hu : u ∈ g.files) (inc : String) (hinc : inc ∈ u.includes)
    (dep : SFile) (hdep : dependency_graph_find_file g inc = some dep) :
    order.indexOf dep.path < order.indexOf u.path := by
  unfold topological_sort at hsort
  cases h1 : sortPass g true g.files { visited := [], inStack := [], order := [] } with
  | none => rw [h1] at hsort; cases hsort
  | some st1 =>
    rw [h1] at hsort
    dsimp only at hsort
    cases h2 : sortPass g false g.files st1 with
    | none => rw [h2] at hsort; cases hsort
    | some st2 =>
      rw [h2] at hsort
      obtain rfl := Option.some.inj hsort
      have hp1 := sortPass_post hnd true g.files _ st1 (fun x hx => hx) (Inv.empty g) h1
      have hp2 := sortPass_post hnd false g.files st1 st2 (fun x hx => hx) hp1.1.inv h2
      have hvisited : ∀ f ∈ g.files, f.path ∈ st2.visited := by
        intro f hf
        by_cases hh : f.is_header = true
        · exact hp2.1.vis_mono _ (hp1.2 f hf hh)
        · exact hp2.2 f hf (by simpa using hh)
      have hstk : st2.inStack = [] := by
        rw [hp2.1.stack_eq, hp1.1.stack_eq]
      have hallord : ∀ f ∈ g.files, f.path ∈ st2.order := fun f hf =>
        hp2.1.inv.done_order f.path (hvisited f hf)
          (by rw [hstk]; exact List.not_mem_nil _)
      have hedge : Edge g u.path dep.path := by
        refine ⟨u, find_file_self hnd hu, ?_, dep, ?_⟩
        · rw [find_file_path hdep]; exact hinc
        · rw [find_file_path hdep]; exact hdep
      exact (hp2.1.inv.sound u.path (hallord u hu) dep.path hedge).2

/-- Witness for C2 at the S2 registry: `util.h` precedes `math.h`,
which resolves `util.h` as an include. -/
theorem topological_sort_order_sound_witness :
    topological_sort gS2 = some ["util.h", "math.h", "main.c"]
    ∧ (["util.h", "math.h", "main.c"] : List String).indexOf utilH.path
      < (["util.h", "math.h", "main.c"] : List String).indexOf mathH.path :=
  ⟨by decide,
    topological_sort_order_sound gS2 ["util.h", "math.h", "main.c"]
      (by decide) (by decide) mathH (by decide) "util.h" (by decide) utilH (by decide)⟩

/-! ## Claim C6 -/

theorem hdrClosed_spec {g : Graph} (hc : hdrClosed g = true) {f : SFile}
    (hf : f ∈ g.files) (hh : f.is_header = true) {inc : String}
    (hinc : inc ∈ f.includes) {d : SFile}
    (hd : dependency_graph_find_file g inc = some d) :
    d.is_header = true := by
  unfold hdrClosed at hc
  rw [List.all_eq_true] at hc
  have h1 := hc f hf
  rw [hh] at h1
  simp only [Bool.not_true, Bool.false_or, List.all_eq_true] at h1
  have h2 := h1 inc hinc
  unfold incHeaderOk at h2
  rw [hd] at h2
  exact h2

theorem dfsDeps_headers {g : Graph} {dfsF : SFile → SortState → Option SortState}
    (hF : DfsHdr g dfsF) :
    ∀ (incs : List String) (st st' : SortState),
      (∀ inc ∈ incs, ∀ d, dependency_graph_find_file g inc = some d →
        d.is_header = true) →
      dfsDeps g dfsF incs st = some st' →
      ∀ p ∈ st'.order, p ∈ st.order ∨ IsHeaderPath g p := by
  intro incs
  induction incs with
  | nil =>
    intro st st' _ hrun
    have h : st = st' := by simpa [dfsDeps] using hrun
    subst h
    exact fun p hp => Or.inl hp
  | cons inc rest ih =>
    intro st st' hhdr hrun
    simp only [dfsDeps] at hrun
    cases hfind : dependency_graph_find_file g inc with
    | none =>
      rw [hfind] at hrun
      exact ih st st' (fun x hx => hhdr x (List.mem_cons_of_mem inc hx)) hrun
    | some dep =>
      rw [hfind] at hrun
      dsimp only at hrun
      by_cases hstk : dep.path ∈ st.inStack
      · rw [if_pos hstk] at hrun; cases hrun
      · rw [if_neg hstk] at hrun
        by_cases hvis : dep.path ∈ st.visited
        · rw [if_pos hvis] at hrun
          exact ih st st' (fun x hx => hhdr x (List.mem_cons_of_mem inc hx)) hrun
        · rw [if_neg hvis] at hrun
          cases hmid : dfsF dep st with
          | none => rw [hmid] at hrun; cases hrun
          | some stm =>
            rw [hmid] at hrun
            have hdh : dep.is_header = true :=
              hhdr inc (List.mem_cons_self inc rest) dep hfind
            have h1 := hF dep st stm (find_file_mem hfind) hdh hmid
            have h2 := ih stm st'
              (fun x hx => hhdr x (List.mem_cons_of_mem inc hx)) hrun
            intro p hp
            rcases h2 p hp with hin | hhp
            · rcases h1 p hin with hin2 | hhp2
              · exact Or.inl hin2
              · exact Or.inr hhp2
            · exact Or.inr hhp

theorem dfs_headers {g : Graph} (hnd : (g.files.map SFile.path).Nodup)
    (hc : hdrClosed g = true) :
    ∀ fuel, DfsHdr g (dfs g fuel) := by
  intro fuel
  induction fuel with
  | zero =>
    intro f st st' _ _ hrun
    cases hrun
  | succ n ih =>
    intro f st st' hf hh hrun
    simp only [dfs] at hrun
    cases hdeps : dfsDeps g (dfs g n) f.includes
        { st with visited := f.path :: st.visited, inStack := f.path :: st.inStack } with
    | none => rw [hdeps] at hrun; cases hrun
    | some st2 =>
      rw [hdeps] at hrun
      obtain rfl := Option.some.inj hrun
      have hincs : ∀ inc ∈ f.includes, ∀ d,
          dependency_graph_find_file g inc = some d → d.is_header = true :=
        fun inc hinc d hd => hdrClosed_spec hc hf hh hinc hd
      have hdh := dfsDeps_headers ih f.includes _ st2 hincs hdeps
      intro p hp
      rcases List.mem_append.mp hp with hin | hin
      · rcases hdh p hin with h | h
        · exact Or.inl h
        · exact Or.inr h
      · rw [List.mem_singleton] at hin
        subst hin
        exact Or.inr ⟨f, find_file_self hnd hf, hh⟩

theorem sortPass_headers {g : Graph} (hnd : (g.files.map SFile.path).Nodup)
    (hc : hdrClosed g = true) :
    ∀ (l : List SFile) (st st' : SortState), (∀ f ∈ l, f ∈ g.files) →
      sortPass g true l st = some st' →
      ∀ p ∈ st'.order, p ∈ st.order ∨ IsHeaderPath g p := by
  intro l
  induction l with
  | nil =>
    intro st st' _ hrun
    have h : st = st' := by simpa [sortPass] using hrun
    subst h
    exact fun p hp => Or.inl hp
  | cons f rest ih =>
    intro st st' hmem hrun
    simp only [sortPass] at hrun
    by_cases hflag : f.is_header ≠ true
    · rw [if_pos hflag] at hrun
      exact ih st st' (fun x hx => hmem x (List.mem_cons_of_mem f hx)) hrun
    · rw [if_neg hflag] at hrun
      by_cases hvis : f.path ∈ st.visited
      · rw [if_pos hvis] at hrun
        exact ih st st' (fun x hx => hmem x (List.mem_cons_of_mem f hx)) hrun
      · rw [if_neg hvis] at hrun
        cases hdfs : dfs g (g.files.length + 1) f st with
        | none => rw [hdfs] at hrun; cases hrun
        | some stm =>
          rw [hdfs] at hrun
          have hh : f.is_header = true := not_not.mp hflag
          have h1 := dfs_headers hnd hc (g.files.length + 1) f st stm
            (hmem f (List.mem_cons_self f rest)) hh hdfs
          have h2 := ih stm st' (fun x hx => hmem x (List.mem_cons_of_mem f hx)) hrun
          intro p hp
          rcases h2 p hp with hin | h
          · rcases h1 p hin with hin2 | h'
            · exact Or.inl hin2
            · exact Or.inr h'
          · exact Or.inr h

/-- C6 counterexample: in a registry where the header `a.h` includes
the source `b.c`, the sort succeeds and a header exists, yet the first
element of the produced order is `b.c`, which is not a header. -/
theorem header_first_fails_on_source_include :
    topological_sort gHdrC = some ["b.c", "a.h"]
    ∧ (∃ f ∈ gHdrC.files, f.is_header = true)
    ∧ (["b.c", "a.h"] : List String).head? = some "b.c"
    ∧ ∀ f ∈ gHdrC.files, f.path = "b.c" → f.is_header = false := by
  decide

/-- C6 amended: if the topological sort succeeds on a registry with
distinct paths, the registry contains a Header unit, and every resolved
include of every Header unit is itself a Header (true of C projects,
and the premise the unrestricted claim lacks), then the first element
of the produced build order is a Header. -/
theorem topological_sort_header_first (g : Graph) (order : List String)
    (hnd : (g.files.map SFile.path).Nodup)
    (hc : hdrClosed g = true)
    (hsort : topological_sort g = some order)
    (h : SFile) (hmem : h ∈ g.files) (hh : h.is_header = true) :
    ∃ p f, order.head? = some p ∧ dependency_graph_find_file g p = some f
      ∧ f.is_header = true := by
  unfold topological_sort at hsort
  cases h1 : sortPass g true g.files { visited := [], inStack := [], order := [] } with
  | none => rw [h1] at hsort; cases hsort
  | some st1 =>
    rw [h1] at hsort
    dsimp only at hsort
    cases h2 : sortPass g false g.files st1 with
    | none => rw [h2] at hsort; cases hsort
    | some st2 =>
      rw [h2] at hsort
      obtain rfl := Option.some.inj hsort
      have hp1 := sortPass_post hnd true g.files _ st1 (fun x hx => hx) (Inv.empty g) h1
      have hhd := sortPass_headers hnd hc g.files _ st1 (fun x hx => hx) h1
      have hstk1 : st1.inStack = [] := hp1.1.stack_eq
      have hordmem : h.path ∈ st1.order :=
        hp1.1.inv.done_order h.path (hp1.2 h hmem hh)
          (by rw [hstk1]; exact List.not_mem_nil _)
      obtain ⟨t, ht⟩ :=
        (sortPass_post hnd false g.files st1 st2 (fun x hx => hx) hp1.1.inv h2).1.order_ext
      cases hq : st1.order with
      | nil => rw [hq] at hordmem; cases hordmem
      | cons q qs =>
        have hqh : IsHeaderPath g q := by
          rcases hhd q (by rw [hq]; exact List.mem_cons_self q qs) with hin | hin
          · cases hin
          · exact hin
        obtain ⟨d, hd, hdh⟩ := hqh
        refine ⟨q, d, ?_, hd, hdh⟩
        rw [ht, hq]
        rfl

/-- Witness for the amended C6 at the S2 registry, whose headers only
include headers. -/
theorem topological_sort_header_first_witness :
    ∃ p f, (["util.h", "math.h", "main.c"] : List String).head? = some p
      ∧ dependency_graph_find_file gS2 p = some f ∧ f.is_header = true :=
  topological_sort_header_first gS2 ["util.h", "math.h", "main.c"]
    (by decide) (by decide) (by decide) utilH (by decide) (by decide)

end EventChains
